import Mathlib

/-!
# Verification of the mkldnn copy kernel and the symbolic-tracing IR

Shallow embedding of the repository's two components:

* `Mkldnn` — the `mkldnn_copy_` kernel from
  `aten/src/ATen/native/mkldnn/Copy.cpp` (both the MKLDNN-enabled and the
  disabled build), with a tensor modelled as sizes plus flat contents and a
  stable buffer identity.

* `FX` — the symbolic-tracing front end, graph IR, mutation primitives,
  code generation and execution.  The Python implementation of these is not
  part of the sources provided (only its documentation is), so every
  definition in this namespace is modelled from the specification's words
  and from the behavior recorded in the documentation (`torch.fx` rst),
  as indicated in each doc comment.
-/

namespace Mkldnn

/-- A tensor as the copy kernel observes it: a stable buffer identity,
its sizes, and its flat contents.  `id` models "which allocation this is",
so that returning `self` (not a fresh tensor) is expressible. -/
structure MkldnnTensor where
  id : Nat
  sizes : List Nat
  data : List Int
deriving DecidableEq

/-- `ideep::direct_copy::compute(x, y)`: copies the contents of `x` into
the buffer of `y`, in place (the destination keeps its identity). -/
def direct_copy (x y : MkldnnTensor) : MkldnnTensor :=
  { y with data := x.data }

/-- Error message of the size check in the MKLDNN-enabled build. -/
def sizeErrMsg : String := "copy_mkldnn_: only support same size tensor."

/-- Error message of the disabled build. -/
def disabledMsg : String := "copy_mkldnn_: ATen not compiled with MKLDNN support"

/-- `mkldnn_copy_` in the MKLDNN-enabled build.  First component: the
returned value (a `Tensor&`, i.e. the destination itself, or the thrown
error).  Second component: the final state of `self`'s buffer, so that
"`self` is unchanged when the check throws" is expressible.  The size
check (`TORCH_CHECK`) runs before `direct_copy`, as in the source. -/
def mkldnn_copy_enabled (self src : MkldnnTensor) (_non_blocking : Bool) :
    Except String MkldnnTensor × MkldnnTensor :=
  if self.sizes = src.sizes then
    let y := direct_copy src self
    (Except.ok y, y)
  else
    (Except.error sizeErrMsg, self)

/-- `mkldnn_copy_` in the build without MKLDNN: `TORCH_CHECK(false, ...)`
throws unconditionally, touching nothing. -/
def mkldnn_copy_disabled (self _src : MkldnnTensor) (_non_blocking : Bool) :
    Except String MkldnnTensor × MkldnnTensor :=
  (Except.error disabledMsg, self)

/-- `mkldnn_copy_` dispatched on the build configuration
(`AT_MKLDNN_ENABLED()`). -/
def mkldnn_copy_ (enabled : Bool) (self src : MkldnnTensor) (non_blocking : Bool) :
    Except String MkldnnTensor × MkldnnTensor :=
  if enabled then mkldnn_copy_enabled self src non_blocking
  else mkldnn_copy_disabled self src non_blocking

/-- Did the call return normally? -/
def isOkE (r : Except String MkldnnTensor) : Bool :=
  match r with
  | Except.ok _ => true
  | Except.error _ => false

end Mkldnn

namespace FX

/-- Modelled from the spec: the closed set of Node kinds. -/
inductive Opcode
  | placeholder
  | get_attr
  | call_function
  | call_method
  | call_module
  | output
deriving DecidableEq

/-- Modelled from the spec: a Node's target — a formal-parameter index for
placeholders, or a callable's name for the call opcodes. -/
inductive Target
  | param (i : Nat)
  | fn (name : String)
deriving DecidableEq

/-- Modelled from the spec: an argument reference — either a reference to
another Node (by its stable id) or a literal constant. -/
inductive Arg
  | node (id : Nat)
  | lit (v : Int)
deriving DecidableEq

/-- Modelled from the spec: one recorded operation.  The "users" set is a
derived index (computed from all Nodes' argument references), so it is not
stored here. -/
structure Node where
  id : Nat
  name : String
  op : Opcode
  target : Target
  args : List Arg
  kwargs : List (String × Arg)
deriving DecidableEq

/-- Modelled from the spec: an ordered sequence of Nodes. -/
structure Graph where
  nodes : List Node
deriving DecidableEq

/-- Does this argument reference the Node with id `i`? -/
def Arg.refsId : Arg → Nat → Bool
  | Arg.node j, i => j = i
  | Arg.lit _, _ => false

/-- Does this Node's args/kwargs reference the Node with id `i`? -/
def Node.referencesId (n : Node) (i : Nat) : Bool :=
  n.args.any (fun a => a.refsId i) || n.kwargs.any (fun p => p.2.refsId i)

/-- The ids of a list of Nodes, in order. -/
def idsOf (ns : List Node) : List Nat := ns.map Node.id

/-- Modelled from the spec: the derived users set of the Node with id `i` —
the ids of all Nodes whose args/kwargs reference it. -/
def Graph.users (g : Graph) (i : Nat) : List Nat :=
  idsOf (g.nodes.filter (fun n => n.referencesId i))

/-- Name auto-uniquification on insertion: the candidate itself when free,
otherwise the candidate with the first free numeric suffix. -/
def freshName (used : List String) (cand : String) : String :=
  if cand ∈ used then
    match (List.range (used.length + 1)).filter
        (fun k => (cand ++ "_" ++ toString (k + 1)) ∉ used) with
    | [] => cand
    | k :: _ => cand ++ "_" ++ toString (k + 1)
  else cand

/-- The names currently used in a list of Nodes. -/
def namesOf (ns : List Node) : List String := ns.map Node.name

/-- Removal of every Node with id `i`, with no check (internal). -/
def Graph.eraseRaw (g : Graph) (i : Nat) : Graph :=
  ⟨g.nodes.filter (fun n => n.id ≠ i)⟩

/-- Error message of `erase` on a Node that still has users. -/
def eraseMsg : String := "erase: node still has users"

/-- Modelled from the spec: `erase(node)` fails if the Node still has
nonzero users; otherwise removes it. -/
def Graph.erase (g : Graph) (i : Nat) : Except String Graph :=
  if g.users i = [] then Except.ok (g.eraseRaw i)
  else Except.error eraseMsg

/-- Replacement of one argument reference: `node a` becomes `node b`. -/
def replaceArg (a b : Nat) : Arg → Arg
  | Arg.node j => if j = a then Arg.node b else Arg.node j
  | Arg.lit v => Arg.lit v

/-- Rewiring of one consumer: every reference to `a` in its args/kwargs
becomes a reference to `b`. -/
def Node.replaceUses (a b : Nat) (n : Node) : Node :=
  { n with
    args := n.args.map (replaceArg a b),
    kwargs := n.kwargs.map (fun p => (p.1, replaceArg a b p.2)) }

/-- Modelled from the spec: `replace_all_uses_with(a, b)` rewires every
consumer's argument/keyword reference from `a` to `b`; it does not erase
`a`.  Users sets are derived, so they update automatically. -/
def Graph.replaceAllUsesWith (g : Graph) (a b : Nat) : Graph :=
  ⟨g.nodes.map (Node.replaceUses a b)⟩

/-- Modelled from the spec (Scenario 2): rewriting the target of the Node
with id `i`, leaving every other field and every other Node untouched. -/
def Graph.setTarget (g : Graph) (i : Nat) (t : Target) : Graph :=
  ⟨g.nodes.map (fun n => if n.id = i then { n with target := t } else n)⟩

/-- A fresh id for insertion into a graph: one more than the largest id. -/
def Graph.freshId (g : Graph) : Nat :=
  (g.nodes.map Node.id).foldr (fun a b => max a b) 0 + 1

/-- Modelled from the spec: public Node insertion at the Graph's end, with
auto-uniquified name.  Returns the new Graph and the new Node's id. -/
def Graph.insertNode (g : Graph) (op : Opcode) (tgt : Target) (args : List Arg)
    (kwargs : List (String × Arg)) (cand : String) : Graph × Nat :=
  let i := g.freshId
  let nm := freshName (namesOf g.nodes) cand
  (⟨g.nodes ++ [⟨i, nm, op, tgt, args, kwargs⟩]⟩, i)

/-- Is this argument a literal, or a reference to a Node in `seen`? -/
def Arg.inSeen (seen : List Nat) : Arg → Bool
  | Arg.node j => seen.contains j
  | Arg.lit _ => true

/-- Do all of this Node's args/kwargs resolve to literals or to ids in
`seen`? -/
def argsAllIn (seen : List Nat) (n : Node) : Bool :=
  n.args.all (Arg.inSeen seen) && n.kwargs.all (fun p => p.2.inSeen seen)

/-- The ordering invariant, processed front to back: every Node's
references resolve to literals or to ids of strictly earlier Nodes. -/
def orderedAux (seen : List Nat) : List Node → Bool
  | [] => true
  | n :: rest => argsAllIn seen n && orderedAux (n.id :: seen) rest

/-- Modelled from the spec: the acyclicity/ordering invariant of a Graph. -/
def Graph.wellOrdered (g : Graph) : Bool := orderedAux [] g.nodes

/-- Is this Node an `output` Node? -/
def Node.isOutput (n : Node) : Bool :=
  match n.op with
  | Opcode.output => true
  | _ => false

/-- Modelled from the spec: exactly one `output` Node, and it is last. -/
def Graph.singleOutputLast (g : Graph) : Bool :=
  (match g.nodes.getLast? with
   | some n => n.isOutput
   | none => false) &&
  (g.nodes.filter Node.isOutput).length = 1

/-- Precedence side condition for `replace_all_uses_with a b`: walking the
node sequence, every Node that references `a` is reached only after `b`. -/
def replOk (a b : Nat) (seen : List Nat) : List Node → Bool
  | [] => true
  | n :: rest => (!(n.referencesId a) || seen.contains b) && replOk a b (n.id :: seen) rest

/-- Modelled from the spec: the errors tracing can raise — `TraceError`
for data-dependent control flow, and the plain `RuntimeError` the
documentation records for an unregistered `len`. -/
inductive TraceErr
  | traceError (msg : String)
  | runtimeError (msg : String)
deriving DecidableEq

/-- Is this error a `TraceError` (as opposed to a plain RuntimeError)? -/
def TraceErr.isTraceError : TraceErr → Bool
  | TraceErr.traceError _ => true
  | TraceErr.runtimeError _ => false

/-- Message of `Tracer.to_bool`, as recorded in the documentation. -/
def boolCoerceMsg : String :=
  "symbolically traced variables cannot be used as inputs to control flow"

/-- Message of `Proxy.__len__`, as recorded in the documentation. -/
def lenMsg : String :=
  "'len' is not supported in symbolic tracing by default. If you want this call to be recorded, please call torch.fx.wrap('len') at module scope"

/-- Message for a free-function call on a Proxy that is not registered via
`wrap` (the model does not trace through unmodelled function bodies). -/
def unsupportedMsg (f : String) : String :=
  "'" ++ f ++ "' is not supported in symbolic tracing by default. If you want this call to be recorded, please call torch.fx.wrap('" ++ f ++ "') at module scope"

/-- The tracer's mutable state: the Nodes recorded so far and the next
fresh Node id. -/
structure TraceState where
  nodes : List Node
  nextId : Nat
deriving DecidableEq

/-- Appending one freshly named Node at the insertion cursor (the end). -/
def TraceState.emit (st : TraceState) (op : Opcode) (tgt : Target)
    (args : List Arg) (cand : String) : TraceState × Nat :=
  (⟨st.nodes ++ [⟨st.nextId, freshName (namesOf st.nodes) cand, op, tgt, args, []⟩],
    st.nextId + 1⟩, st.nextId)

/-- Modelled from the spec: the pure host computations the tracer runs —
formal parameters, integer literals, primitive binary operations
(intercepted on Proxies), free-function calls (one argument), `len`, and
boolean coercion.  Data-dependent control flow is exactly what `pbool` and
`plen` on a symbolic value would feed. -/
inductive HExp
  | var (i : Nat)
  | lit (v : Int)
  | binop (op : String) (a b : HExp)
  | call1 (f : String) (a : HExp)
  | plen (a : HExp)
  | pbool (a : HExp)
deriving DecidableEq

/-- Are all formal-parameter references below `np`? -/
def varsBelow (np : Nat) : HExp → Bool
  | HExp.var i => i < np
  | HExp.lit _ => true
  | HExp.binop _ a b => varsBelow np a && varsBelow np b
  | HExp.call1 _ a => varsBelow np a
  | HExp.plen a => varsBelow np a
  | HExp.pbool a => varsBelow np a

/-- Direct evaluation of the host computation on concrete inputs, with
`sem` giving the meaning of every named operation and function. -/
def heval (sem : String → List Int → Int) (inputs : List Int) : HExp → Int
  | HExp.var i => inputs.getD i 0
  | HExp.lit v => v
  | HExp.binop op a b => sem op [heval sem inputs a, heval sem inputs b]
  | HExp.call1 f a => sem f [heval sem inputs a]
  | HExp.plen a => sem "len" [heval sem inputs a]
  | HExp.pbool a => if heval sem inputs a = 0 then 0 else 1

/-- Modelled from the spec and the documented traceback of
`Tracer.to_bool`: coercing a symbolic value to a boolean raises
`TraceError` recording nothing; a concrete value is coerced directly. -/
def to_bool (st : TraceState) (a : Arg) : Except TraceErr (TraceState × Arg) :=
  match a with
  | Arg.lit v => Except.ok (st, Arg.lit (if v = 0 then 0 else 1))
  | Arg.node _ => Except.error (TraceErr.traceError boolCoerceMsg)

/-- Modelled from the spec and the documented traceback of
`Proxy.__len__`: with `len` registered via `wrap`, the call is recorded as
a `call_function` Node; otherwise a symbolic operand raises the documented
`RuntimeError` recording nothing, and a concrete operand is measured
directly. -/
def proxy_len (reg : List String) (sem : String → List Int → Int)
    (st : TraceState) (a : Arg) : Except TraceErr (TraceState × Arg) :=
  if "len" ∈ reg then
    let e := st.emit Opcode.call_function (Target.fn "len") [a] "len"
    Except.ok (e.1, Arg.node e.2)
  else
    match a with
    | Arg.lit v => Except.ok (st, Arg.lit (sem "len" [v]))
    | Arg.node _ => Except.error (TraceErr.runtimeError lenMsg)

/-- Modelled from the spec: symbolic execution of the host computation.
`reg` is the process-wide `wrap` registry.  A primitive operation with at
least one symbolic operand appends a `call_function` Node; with only
concrete operands the host computes it directly.  A registered free
function is always recorded as an opaque `call_function` Node and is never
traced through; an unregistered one is computed directly when its operand
is concrete, and is rejected on a symbolic operand (the model carries no
foreign function bodies to trace through). -/
def traceE (reg : List String) (sem : String → List Int → Int) :
    HExp → TraceState → Except TraceErr (TraceState × Arg)
  | HExp.var i, st => Except.ok (st, Arg.node i)
  | HExp.lit v, st => Except.ok (st, Arg.lit v)
  | HExp.binop op a b, st =>
    match traceE reg sem a st with
    | Except.error e => Except.error e
    | Except.ok (st1, ra) =>
      match traceE reg sem b st1 with
      | Except.error e => Except.error e
      | Except.ok (st2, rb) =>
        match ra, rb with
        | Arg.lit va, Arg.lit vb => Except.ok (st2, Arg.lit (sem op [va, vb]))
        | ra, rb =>
          let e := st2.emit Opcode.call_function (Target.fn op) [ra, rb] op
          Except.ok (e.1, Arg.node e.2)
  | HExp.call1 f a, st =>
    match traceE reg sem a st with
    | Except.error e => Except.error e
    | Except.ok (st1, ra) =>
      if f ∈ reg then
        let e := st1.emit Opcode.call_function (Target.fn f) [ra] f
        Except.ok (e.1, Arg.node e.2)
      else
        match ra with
        | Arg.lit v => Except.ok (st1, Arg.lit (sem f [v]))
        | Arg.node _ => Except.error (TraceErr.runtimeError (unsupportedMsg f))
  | HExp.plen a, st =>
    match traceE reg sem a st with
    | Except.error e => Except.error e
    | Except.ok (st1, ra) => proxy_len reg sem st1 ra
  | HExp.pbool a, st =>
    match traceE reg sem a st with
    | Except.error e => Except.error e
    | Except.ok (st1, ra) => to_bool st1 ra

/-- The placeholder Node for formal parameter `i`. -/
def mkPlaceholder (i : Nat) : Node :=
  ⟨i, "x" ++ toString i, Opcode.placeholder, Target.param i, [], []⟩

/-- The tracer's initial state: one placeholder Node per formal
parameter, in parameter order. -/
def initState (np : Nat) : TraceState :=
  ⟨(List.range np).map mkPlaceholder, np⟩

/-- Modelled from the spec: `trace(f, params) -> Graph`.  Creates the
placeholders, runs the callable symbolically, and appends the single
`output` Node; any error discards all partial state. -/
def htrace (reg : List String) (sem : String → List Int → Int) (np : Nat)
    (e : HExp) : Except TraceErr Graph :=
  match traceE reg sem e (initState np) with
  | Except.error err => Except.error err
  | Except.ok (st, r) =>
    Except.ok ⟨(st.emit Opcode.output (Target.fn "output") [r] "output").1.nodes⟩

/-- One statement of the generated code: bind a name to a formal
parameter, or to a call of a named operation. -/
inductive Stmt
  | bindParam (nid : Nat) (i : Nat)
  | bindCall (nid : Nat) (f : String) (args : List Arg)
deriving DecidableEq

/-- The generated callable body: ordered statements and the returned
reference. -/
structure Code where
  stmts : List Stmt
  ret : Arg
deriving DecidableEq

/-- The statement generated for one Node (`output` generates none: it
becomes the return expression). -/
def stmtOfNode (n : Node) : Option Stmt :=
  match n.op, n.target with
  | Opcode.placeholder, Target.param i => some (Stmt.bindParam n.id i)
  | Opcode.call_function, Target.fn f => some (Stmt.bindCall n.id f n.args)
  | _, _ => none

/-- The argument returned by the Graph's `output` Node. -/
def Graph.outputArg (g : Graph) : Arg :=
  match g.nodes.find? Node.isOutput with
  | some n => n.args.headD (Arg.lit 0)
  | none => Arg.lit 0

/-- Modelled from the spec: code generation — placeholders bind to formal
parameters in Graph order, every other Node becomes one ordered statement,
the `output` Node becomes the return expression. -/
def codegen (g : Graph) : Code :=
  ⟨g.nodes.filterMap stmtOfNode, g.outputArg⟩

/-- Resolution of an argument reference in the run-time environment (an
ordered name/value association list). -/
def resolveArg (env : List (Nat × Int)) : Arg → Int
  | Arg.lit v => v
  | Arg.node i => (env.lookup i).getD 0

/-- Execution of one generated statement. -/
def execStmt (sem : String → List Int → Int) (inputs : List Int)
    (env : List (Nat × Int)) : Stmt → List (Nat × Int)
  | Stmt.bindParam nid i => env ++ [(nid, inputs.getD i 0)]
  | Stmt.bindCall nid f args => env ++ [(nid, sem f (args.map (resolveArg env)))]

/-- Modelled from the spec: execution of the generated code on concrete
inputs. -/
def execute (sem : String → List Int → Int) (c : Code) (inputs : List Int) : Int :=
  resolveArg (c.stmts.foldl (execStmt sem inputs) []) c.ret

/-- The environment produced by executing the code generated for a Node
list (internal to the proofs). -/
def envOf (sem : String → List Int → Int) (inputs : List Int)
    (ns : List Node) : List (Nat × Int) :=
  (ns.filterMap stmtOfNode).foldl (execStmt sem inputs) []

/-- The ids accumulated by the ordering walk over a node list (internal
to the proofs). -/
def accumIds (seen : List Nat) : List Node → List Nat
  | [] => seen
  | n :: rest => accumIds (n.id :: seen) rest

/-- Invariant carried through symbolic execution (internal to the
proofs): the parameter count is within the id supply, node ids are below
the supply, no `output` Node was recorded yet, the generated environment
binds only ids below the supply, every placeholder is bound to its input,
the recorded Nodes satisfy the ordering invariant, and every parameter id
is present. -/
def TraceInv (np : Nat) (sem : String → List Int → Int) (inputs : List Int)
    (st : TraceState) : Prop :=
  np ≤ st.nextId ∧
  (∀ n ∈ st.nodes, n.id < st.nextId) ∧
  (∀ n ∈ st.nodes, n.op ≠ Opcode.output) ∧
  (∀ k, ((envOf sem inputs st.nodes).lookup k).isSome = true → k < st.nextId) ∧
  (∀ i, i < np → (envOf sem inputs st.nodes).lookup i = some (inputs.getD i 0)) ∧
  orderedAux [] st.nodes = true ∧
  (∀ i, i < np → (idsOf st.nodes).contains i = true)

/-- A traced argument denotes the value `v` (internal to the proofs): a
literal is the value itself; a Node reference is in range and bound to it
by the generated code. -/
def argOk (sem : String → List Int → Int) (inputs : List Int)
    (st : TraceState) (a : Arg) (v : Int) : Prop :=
  match a with
  | Arg.lit w => w = v
  | Arg.node j => j < st.nextId ∧ (envOf sem inputs st.nodes).lookup j = some v

/-- One trace state extends another (internal to the proofs). -/
def Ext (st st2 : TraceState) : Prop :=
  st.nextId ≤ st2.nextId ∧ ∃ ms, st2.nodes = st.nodes ++ ms

/-- The argument's Node reference, if any, is recorded in the state
(internal to the proofs). -/
def argInState (st : TraceState) (a : Arg) : Prop :=
  Arg.inSeen (idsOf st.nodes) a = true

/-- A concrete semantics of named operations, for concrete instantiations:
`add`, `mul`, `truediv` (integer division stands in for the host's
division), `len` and `sqrt` as fixed host functions on integers. -/
def semStd : String → List Int → Int
  | "add", [a, b] => a + b
  | "mul", [a, b] => a * b
  | "truediv", [a, b] => a / b
  | "eq", [a, b] => if a = b then 1 else 0
  | "len", [a] => a
  | "sqrt", [a] => a.toNat.sqrt
  | _, _ => 0

/-- Scenario 4 of the spec: `normalize(x) -> x / sqrt(len(x))`. -/
def normalizeExp : HExp :=
  HExp.binop "truediv" (HExp.var 0) (HExp.call1 "sqrt" (HExp.plen (HExp.var 0)))

/-- Scenario 3 of the spec: `f(x) -> (x == 3)` used in a conditional. -/
def scenario3Exp : HExp :=
  HExp.pbool (HExp.binop "eq" (HExp.var 0) (HExp.lit 3))

/-- A graph built from empty purely through the public mutation
operations: four inserts building `x ⟶ f ⟶ g` plus a later `h(x)` and the
output, then `replace_all_uses_with f h`, whose replacement node sits
after `g`, the consumer being rewired. -/
def demoMisordered : Graph :=
  let p1 := Graph.insertNode ⟨[]⟩ Opcode.placeholder (Target.param 0) [] [] "x"
  let p2 := p1.1.insertNode Opcode.call_function (Target.fn "f") [Arg.node p1.2] [] "f"
  let p3 := p2.1.insertNode Opcode.call_function (Target.fn "g") [Arg.node p2.2] [] "g"
  let p4 := p3.1.insertNode Opcode.call_function (Target.fn "h") [Arg.node p1.2] [] "h"
  let p5 := p4.1.insertNode Opcode.output (Target.fn "output") [Arg.node p3.2] [] "output"
  p5.1.replaceAllUsesWith p2.2 p4.2

/-- A small concrete graph for instantiations: `x`, `f(x)`, `h(x)`. -/
def demoSmall : Graph :=
  ⟨[⟨0, "x", Opcode.placeholder, Target.param 0, [], []⟩,
    ⟨1, "f", Opcode.call_function, Target.fn "f", [Arg.node 0], []⟩,
    ⟨2, "h", Opcode.call_function, Target.fn "h", [Arg.node 0], []⟩]⟩

end FX

open Mkldnn FX

/-- C2: in a build with MKLDNN enabled, `mkldnn_copy_(self, src, nb)`
raises an error exactly when `self.sizes() != src.sizes()`; when it
raises, the size check precedes every write, so `self` is unchanged. -/
theorem mkldnn_copy_error_iff_size_mismatch (self src : MkldnnTensor) (nb : Bool) :
    (isOkE (mkldnn_copy_ true self src nb).1 = false ↔ self.sizes ≠ src.sizes) ∧
    (self.sizes ≠ src.sizes →
      (mkldnn_copy_ true self src nb).1 = Except.error sizeErrMsg ∧
      (mkldnn_copy_ true self src nb).2 = self) := by
  by_cases h : self.sizes = src.sizes <;>
    simp [mkldnn_copy_, mkldnn_copy_enabled, isOkE, h]

/-- Witness for C2 at concrete tensors of different sizes. -/
theorem mkldnn_copy_error_iff_size_mismatch_witness :
    (mkldnn_copy_ true ⟨0, [2], [1, 2]⟩ ⟨1, [3], [1, 2, 3]⟩ false).1 =
      Except.error sizeErrMsg ∧
    (mkldnn_copy_ true ⟨0, [2], [1, 2]⟩ ⟨1, [3], [1, 2, 3]⟩ false).2 =
      ⟨0, [2], [1, 2]⟩ :=
  (mkldnn_copy_error_iff_size_mismatch ⟨0, [2], [1, 2]⟩ ⟨1, [3], [1, 2, 3]⟩ false).2
    (by decide)

/-- C3: whenever `mkldnn_copy_` succeeds (MKLDNN enabled and equal sizes),
the returned tensor is the destination itself — same buffer identity, same
sizes — with the contents of `src` copied in; no new tensor is
allocated. -/
theorem mkldnn_copy_success_returns_self (self src : MkldnnTensor) (nb : Bool)
    (h : self.sizes = src.sizes) :
    (mkldnn_copy_ true self src nb).1 = Except.ok ((mkldnn_copy_ true self src nb).2) ∧
    (mkldnn_copy_ true self src nb).2.id = self.id ∧
    (mkldnn_copy_ true self src nb).2.sizes = self.sizes ∧
    (mkldnn_copy_ true self src nb).2.data = src.data := by
  simp [mkldnn_copy_, mkldnn_copy_enabled, direct_copy, h]

/-- Witness for C3 at concrete same-size tensors. -/
theorem mkldnn_copy_success_returns_self_witness :
    (mkldnn_copy_ true ⟨0, [2], [1, 2]⟩ ⟨1, [2], [7, 8]⟩ false).1 =
      Except.ok ((mkldnn_copy_ true ⟨0, [2], [1, 2]⟩ ⟨1, [2], [7, 8]⟩ false).2) ∧
    (mkldnn_copy_ true ⟨0, [2], [1, 2]⟩ ⟨1, [2], [7, 8]⟩ false).2.id = 0 ∧
    (mkldnn_copy_ true ⟨0, [2], [1, 2]⟩ ⟨1, [2], [7, 8]⟩ false).2.sizes = [2] ∧
    (mkldnn_copy_ true ⟨0, [2], [1, 2]⟩ ⟨1, [2], [7, 8]⟩ false).2.data = [7, 8] :=
  mkldnn_copy_success_returns_self ⟨0, [2], [1, 2]⟩ ⟨1, [2], [7, 8]⟩ false (by decide)

/-- C4: in every build configuration and for every pair of tensors,
`mkldnn_copy_` with `non_blocking = true` and with `non_blocking = false`
produce the same outcome — the parameter is never consulted. -/
theorem mkldnn_copy_non_blocking_irrelevant (enabled : Bool) (self src : MkldnnTensor) :
    mkldnn_copy_ enabled self src true = mkldnn_copy_ enabled self src false := rfl

/-- C9: with `len` and `sqrt` pre-registered via `wrap`, tracing
`normalize(x) -> x / sqrt(len(x))` succeeds (for every ambient semantics)
and yields exactly one `call_function` Node each for `len`, `sqrt` and the
division, each call opaque (one Node, nothing traced into), plus the
placeholder and the output. -/
theorem wrap_normalize_trace (sem : String → List Int → Int) :
    htrace ["len", "sqrt"] sem 1 normalizeExp = Except.ok ⟨[
      ⟨0, "x0", Opcode.placeholder, Target.param 0, [], []⟩,
      ⟨1, "len", Opcode.call_function, Target.fn "len", [Arg.node 0], []⟩,
      ⟨2, "sqrt", Opcode.call_function, Target.fn "sqrt", [Arg.node 1], []⟩,
      ⟨3, "truediv", Opcode.call_function, Target.fn "truediv",
        [Arg.node 0, Arg.node 2], []⟩,
      ⟨4, "output", Opcode.output, Target.fn "output", [Arg.node 3], []⟩]⟩ := rfl

/-- C8 counterexample: querying the length of a Proxy with `len` not
registered fails with the documented plain `RuntimeError`, not with a
`TraceError` — tracing `f(x) -> len(x)` under the empty registry. -/
theorem len_error_is_not_trace_error :
    htrace [] semStd 1 (HExp.plen (HExp.var 0)) =
      Except.error (TraceErr.runtimeError lenMsg) ∧
    (TraceErr.runtimeError lenMsg).isTraceError = false :=
  ⟨rfl, rfl⟩

/-- C8 as amended: coercing a Proxy to a boolean raises a `TraceError`,
and querying a Proxy's length without registration raises the documented
`RuntimeError`; in both cases the failing step returns no state, so no
Node for the consuming branch is recorded, and the whole trace aborts
exposing no partial Graph — as on Scenario 3, `f(x) -> (x == 3)` used in
a conditional. -/
theorem proxy_bool_len_errors (st : TraceState) (p : Nat) (reg : List String)
    (sem : String → List Int → Int) (hlen : "len" ∉ reg) :
    to_bool st (Arg.node p) = Except.error (TraceErr.traceError boolCoerceMsg) ∧
    proxy_len reg sem st (Arg.node p) = Except.error (TraceErr.runtimeError lenMsg) ∧
    htrace [] sem 1 scenario3Exp = Except.error (TraceErr.traceError boolCoerceMsg) := by
  refine ⟨rfl, ?_, rfl⟩
  simp [proxy_len, hlen]

/-- Witness for the amended C8 at a concrete state and registry. -/
theorem proxy_bool_len_errors_witness :
    to_bool (initState 1) (Arg.node 0) =
      Except.error (TraceErr.traceError boolCoerceMsg) ∧
    proxy_len [] semStd (initState 1) (Arg.node 0) =
      Except.error (TraceErr.runtimeError lenMsg) ∧
    htrace [] semStd 1 scenario3Exp =
      Except.error (TraceErr.traceError boolCoerceMsg) :=
  proxy_bool_len_errors (initState 1) 0 [] semStd (by decide)

/-- C7 counterexample: a Graph built from empty purely through the public
mutation operations (five `insertNode`, one `replace_all_uses_with`)
violates the ordering invariant: the replacement node sits after the
consumer it is wired into. -/
theorem replace_breaks_ordering : demoMisordered.wellOrdered = false := by decide

theorem replaceArg_no_ref (a b : Nat) (hab : a ≠ b) (x : Arg) :
    (replaceArg a b x).refsId a = false := by
  cases x with
  | node j =>
    by_cases hj : j = a
    · simp [replaceArg, hj, Arg.refsId, Ne.symm hab]
    · simp [replaceArg, hj, Arg.refsId]
  | lit v => rfl

theorem replaceUses_no_ref (a b : Nat) (hab : a ≠ b) (n : Node) :
    (Node.replaceUses a b n).referencesId a = false := by
  simp only [Node.replaceUses, Node.referencesId, Bool.or_eq_false_iff]
  refine ⟨?_, ?_⟩ <;>
  · simp only [List.any_map, List.any_eq_false, Function.comp]
    intro x _
    simp [replaceArg_no_ref a b hab]

theorem replaceAll_users_empty (g : Graph) (a b : Nat) (hab : a ≠ b) :
    (g.replaceAllUsesWith a b).users a = [] := by
  have hfil : (g.replaceAllUsesWith a b).nodes.filter (fun n => n.referencesId a) = [] := by
    simp only [List.filter_eq_nil_iff, Graph.replaceAllUsesWith, List.mem_map]
    rintro n ⟨m, _, rfl⟩
    simp [replaceUses_no_ref a b hab]
  simp [Graph.users, hfil, idsOf]

/-- C5: `replace_all_uses_with(A, B)` followed by `erase(A)` leaves zero
references to `A` anywhere in the Graph: the erase succeeds, `A` is out of
the node sequence, no remaining Node's args/kwargs reference `A`, and
`A`'s users set is empty. -/
theorem replace_then_erase_clean (g : Graph) (a b : Nat)
    (_ha : a ∈ idsOf g.nodes) (_hb : b ∈ idsOf g.nodes) (hab : a ≠ b) :
    (g.replaceAllUsesWith a b).erase a =
      Except.ok ((g.replaceAllUsesWith a b).eraseRaw a) ∧
    a ∉ idsOf ((g.replaceAllUsesWith a b).eraseRaw a).nodes ∧
    ((g.replaceAllUsesWith a b).eraseRaw a).nodes.all
      (fun n => !(n.referencesId a)) = true ∧
    ((g.replaceAllUsesWith a b).eraseRaw a).users a = [] := by
  have hmem : ∀ n ∈ ((g.replaceAllUsesWith a b).eraseRaw a).nodes,
      n.referencesId a = false := by
    intro n hn
    simp only [Graph.eraseRaw, List.mem_filter, Graph.replaceAllUsesWith,
      List.mem_map] at hn
    obtain ⟨⟨m, _, rfl⟩, _⟩ := hn
    exact replaceUses_no_ref a b hab m
  refine ⟨?_, ?_, ?_, ?_⟩
  · simp [Graph.erase, replaceAll_users_empty g a b hab]
  · intro hmemids
    simp only [Graph.eraseRaw, idsOf, List.mem_map] at hmemids
    obtain ⟨n, hn, hna⟩ := hmemids
    rw [List.mem_filter] at hn
    have hne : n.id ≠ a := by simpa using hn.2
    exact hne hna
  · simp only [List.all_eq_true]
    intro n hn
    simp [hmem n hn]
  · have hfil : ((g.replaceAllUsesWith a b).eraseRaw a).nodes.filter
        (fun n => n.referencesId a) = [] := by
      simp only [List.filter_eq_nil_iff]
      intro n hn
      simp [hmem n hn]
    simp [Graph.users, hfil, idsOf]

/-- Witness for C5: replacing all uses of `x` (id 0) with `h` (id 2) in the
concrete graph and erasing `x` leaves no reference to id 0. -/
theorem replace_then_erase_clean_witness :
    (demoSmall.replaceAllUsesWith 0 2).erase 0 =
      Except.ok ((demoSmall.replaceAllUsesWith 0 2).eraseRaw 0) ∧
    0 ∉ idsOf ((demoSmall.replaceAllUsesWith 0 2).eraseRaw 0).nodes ∧
    ((demoSmall.replaceAllUsesWith 0 2).eraseRaw 0).nodes.all
      (fun n => !(n.referencesId 0)) = true ∧
    ((demoSmall.replaceAllUsesWith 0 2).eraseRaw 0).users 0 = [] :=
  replace_then_erase_clean demoSmall 0 2 (by decide) (by decide) (by decide)

/-- C6: `erase(n)` fails exactly when `n` still has users (and then removes
nothing, since nothing is returned); otherwise it removes `n` from the
Graph, and — names being unique — `n`'s name is reusable: uniquification
of that very name against the remaining Graph returns it unchanged. -/
theorem erase_users_check_and_name_reuse (g : Graph) (n : Node) (hn : n ∈ g.nodes)
    (hu : (namesOf g.nodes).Nodup) :
    (g.users n.id ≠ [] → g.erase n.id = Except.error eraseMsg) ∧
    (g.users n.id = [] →
      g.erase n.id = Except.ok (g.eraseRaw n.id) ∧
      n.id ∉ idsOf (g.eraseRaw n.id).nodes ∧
      freshName (namesOf (g.eraseRaw n.id).nodes) n.name = n.name) := by
  constructor
  · intro h
    simp [Graph.erase, h]
  · intro h
    refine ⟨by simp [Graph.erase, h], ?_, ?_⟩
    · intro hmemids
      simp only [Graph.eraseRaw, idsOf, List.mem_map] at hmemids
      obtain ⟨m, hm, hma⟩ := hmemids
      rw [List.mem_filter] at hm
      have hne : m.id ≠ n.id := by simpa using hm.2
      exact hne hma
    · have hnot : n.name ∉ namesOf (g.eraseRaw n.id).nodes := by
        intro hmem
        simp only [namesOf, Graph.eraseRaw, List.mem_map] at hmem
        obtain ⟨m, hmg, hmname⟩ := hmem
        rw [List.mem_filter] at hmg
        have hne : m.id ≠ n.id := by simpa using hmg.2
        have heq : m = n := List.inj_on_of_nodup_map hu hmg.1 hn hmname
        exact hne (by rw [heq])
      simp [freshName, hnot]

/-- Witness for C6: erasing the user-free Node `h` (id 2) from the concrete
graph succeeds, removes it, and frees its name for reuse. -/
theorem erase_users_check_and_name_reuse_witness :
    demoSmall.erase 2 = Except.ok (demoSmall.eraseRaw 2) ∧
    2 ∉ idsOf (demoSmall.eraseRaw 2).nodes ∧
    freshName (namesOf (demoSmall.eraseRaw 2).nodes) "h" = "h" :=
  (erase_users_check_and_name_reuse demoSmall
      ⟨2, "h", Opcode.call_function, Target.fn "h", [Arg.node 0], []⟩
      (by decide) (by decide)).2 (by decide)

/-- C10: rewriting one Node's target changes exactly that Node's target
field — every Node keeps its position, id, name, opcode, args and kwargs;
Nodes other than the rewritten one keep their target; and every Node's
derived users set is unchanged. -/
theorem set_target_frame (g : Graph) (i : Nat) (t : Target) :
    (g.setTarget i t).nodes.length = g.nodes.length ∧
    (∀ (k : Nat) (hk : k < g.nodes.length) (hk2 : k < (g.setTarget i t).nodes.length),
      ((g.setTarget i t).nodes.get ⟨k, hk2⟩).id = (g.nodes.get ⟨k, hk⟩).id ∧
      ((g.setTarget i t).nodes.get ⟨k, hk2⟩).name = (g.nodes.get ⟨k, hk⟩).name ∧
      ((g.setTarget i t).nodes.get ⟨k, hk2⟩).op = (g.nodes.get ⟨k, hk⟩).op ∧
      ((g.setTarget i t).nodes.get ⟨k, hk2⟩).args = (g.nodes.get ⟨k, hk⟩).args ∧
      ((g.setTarget i t).nodes.get ⟨k, hk2⟩).kwargs = (g.nodes.get ⟨k, hk⟩).kwargs ∧
      ((g.nodes.get ⟨k, hk⟩).id ≠ i →
        ((g.setTarget i t).nodes.get ⟨k, hk2⟩).target = (g.nodes.get ⟨k, hk⟩).target) ∧
      ((g.nodes.get ⟨k, hk⟩).id = i →
        ((g.setTarget i t).nodes.get ⟨k, hk2⟩).target = t)) ∧
    (∀ j, (g.setTarget i t).users j = g.users j) := by
  refine ⟨by simp [Graph.setTarget], ?_, ?_⟩
  · intro k hk hk2
    have hget : (g.setTarget i t).nodes.get ⟨k, hk2⟩ =
        (fun n => if n.id = i then { n with target := t } else n)
          (g.nodes.get ⟨k, hk⟩) := by
      simp [Graph.setTarget]
    rw [hget]
    by_cases hni : g.nodes[k].id = i <;> simp [hni]
  · intro j
    simp only [Graph.users, Graph.setTarget, idsOf]
    rw [List.filter_map, List.map_map]
    have hp : ((fun n => n.referencesId j) ∘
        (fun n => if n.id = i then { n with target := t } else n)) =
        (fun (n : Node) => n.referencesId j) := by
      funext n
      by_cases hni : n.id = i <;> simp [hni, Node.referencesId]
    rw [hp]
    apply List.map_congr_left
    intro m _
    by_cases hmi : m.id = i <;> simp [hmi]

theorem lookup_append (l1 l2 : List (Nat × Int)) (k : Nat) :
    (l1 ++ l2).lookup k = (match l1.lookup k with
      | some v => some v
      | none => l2.lookup k) := by
  induction l1 with
  | nil => simp [List.lookup]
  | cons p l ih =>
    obtain ⟨k1, v1⟩ := p
    cases hbeq : k == k1 <;> simp [List.lookup, hbeq, ih]

theorem lookup_append_some {l1 : List (Nat × Int)} {k : Nat} {v : Int}
    (l2 : List (Nat × Int)) (h : l1.lookup k = some v) :
    (l1 ++ l2).lookup k = some v := by
  rw [lookup_append, h]

theorem lookup_append_none {l1 : List (Nat × Int)} {k : Nat}
    (l2 : List (Nat × Int)) (h : l1.lookup k = none) :
    (l1 ++ l2).lookup k = l2.lookup k := by
  rw [lookup_append, h]

theorem lookup_single (k i : Nat) (v : Int) :
    ([(i, v)] : List (Nat × Int)).lookup k = if k = i then some v else none := by
  cases hbeq : k == i
  · have hk : ¬ k = i := by simpa using hbeq
    simp [List.lookup, hbeq, hk]
  · have hk : k = i := by simpa using hbeq
    simp [List.lookup, hbeq, hk]

theorem envOf_append_call (sem : String → List Int → Int) (inputs : List Int)
    (ns : List Node) (nid : Nat) (nm : String) (f : String) (args : List Arg)
    (kws : List (String × Arg)) :
    envOf sem inputs (ns ++ [⟨nid, nm, Opcode.call_function, Target.fn f, args, kws⟩]) =
      envOf sem inputs ns ++
        [(nid, sem f (args.map (resolveArg (envOf sem inputs ns))))] := by
  simp [envOf, List.filterMap_append, List.foldl_append, stmtOfNode, execStmt]

theorem envOf_append_param (sem : String → List Int → Int) (inputs : List Int)
    (ns : List Node) (i : Nat) :
    envOf sem inputs (ns ++ [mkPlaceholder i]) =
      envOf sem inputs ns ++ [(i, inputs.getD i 0)] := by
  simp [envOf, List.filterMap_append, List.foldl_append, stmtOfNode,
    mkPlaceholder, execStmt]

theorem execStmt_extends (sem : String → List Int → Int) (inputs : List Int)
    (stmts : List Stmt) :
    ∀ env : List (Nat × Int),
      ∃ tail, stmts.foldl (execStmt sem inputs) env = env ++ tail := by
  induction stmts with
  | nil =>
    intro env
    exact ⟨[], by simp⟩
  | cons s rest ih =>
    intro env
    rw [List.foldl_cons]
    cases s with
    | bindParam nid i =>
      obtain ⟨t, ht⟩ := ih (env ++ [(nid, inputs.getD i 0)])
      exact ⟨(nid, inputs.getD i 0) :: t, by
        simpa [execStmt, List.append_assoc] using ht⟩
    | bindCall nid f args =>
      obtain ⟨t, ht⟩ := ih (env ++ [(nid, sem f (args.map (resolveArg env)))])
      exact ⟨(nid, sem f (args.map (resolveArg env))) :: t, by
        simpa [execStmt, List.append_assoc] using ht⟩

theorem envOf_mono (sem : String → List Int → Int) (inputs : List Int)
    (ns ms : List Node) :
    ∃ tail, envOf sem inputs (ns ++ ms) = envOf sem inputs ns ++ tail := by
  unfold envOf
  rw [List.filterMap_append, List.foldl_append]
  exact execStmt_extends sem inputs (ms.filterMap stmtOfNode) _

theorem argOk_mono {sem : String → List Int → Int} {inputs : List Int}
    {st st2 : TraceState} {a : Arg} {v : Int} (h : argOk sem inputs st a v)
    (hext : Ext st st2) : argOk sem inputs st2 a v := by
  cases a with
  | lit w => exact h
  | node j =>
    obtain ⟨hlt, hlook⟩ := h
    obtain ⟨hle, ms, hms⟩ := hext
    refine ⟨lt_of_lt_of_le hlt hle, ?_⟩
    rw [hms]
    obtain ⟨tail, htail⟩ := envOf_mono sem inputs st.nodes ms
    rw [htail]
    exact lookup_append_some tail hlook

theorem argOk_resolve {sem : String → List Int → Int} {inputs : List Int}
    {st : TraceState} {a : Arg} {v : Int} (h : argOk sem inputs st a v) :
    resolveArg (envOf sem inputs st.nodes) a = v := by
  cases a with
  | lit w => exact h
  | node j => simp [resolveArg, h.2]

theorem argInState_mono {st st2 : TraceState} {a : Arg} (h : argInState st a)
    (hext : Ext st st2) : argInState st2 a := by
  obtain ⟨_, ms, hms⟩ := hext
  cases a with
  | lit v => rfl
  | node j =>
    unfold argInState Arg.inSeen at h ⊢
    rw [hms]
    have h2 : j ∈ idsOf st.nodes := by simpa using h
    have h3 : j ∈ idsOf (st.nodes ++ ms) := by
      simp only [idsOf, List.map_append]
      exact List.mem_append_left _ h2
    simpa using h3

theorem ext_refl (st : TraceState) : Ext st st :=
  ⟨Nat.le_refl _, [], by simp⟩

theorem ext_trans {st1 st2 st3 : TraceState} (h1 : Ext st1 st2)
    (h2 : Ext st2 st3) : Ext st1 st3 := by
  obtain ⟨hle1, ms1, hms1⟩ := h1
  obtain ⟨hle2, ms2, hms2⟩ := h2
  exact ⟨Nat.le_trans hle1 hle2, ms1 ++ ms2, by rw [hms2, hms1, List.append_assoc]⟩

theorem orderedAux_append (l1 l2 : List Node) :
    ∀ seen : List Nat, orderedAux seen (l1 ++ l2) =
      (orderedAux seen l1 && orderedAux (accumIds seen l1) l2) := by
  induction l1 with
  | nil => intro seen; simp [orderedAux, accumIds]
  | cons n rest ih =>
    intro seen
    simp [orderedAux, accumIds, ih, Bool.and_assoc]

theorem mem_accumIds {l : List Node} :
    ∀ {seen : List Nat} {j : Nat}, (j ∈ idsOf l ∨ j ∈ seen) → j ∈ accumIds seen l := by
  induction l with
  | nil =>
    intro seen j h
    cases h with
    | inl h => simp [idsOf] at h
    | inr h => simpa [accumIds] using h
  | cons n rest ih =>
    intro seen j h
    show j ∈ accumIds (n.id :: seen) rest
    apply ih
    rcases h with h | h
    · simp only [idsOf, List.map_cons, List.mem_cons] at h
      rcases h with h | h
      · right
        simp [h]
      · left
        exact h
    · right
      simp [List.mem_cons, h]

theorem emit_call_ok (np : Nat) (sem : String → List Int → Int) (inputs : List Int)
    (st : TraceState) (f : String) (args : List Arg) (cand : String)
    (hInv : TraceInv np sem inputs st)
    (hargs : args.all (Arg.inSeen (idsOf st.nodes)) = true) :
    TraceInv np sem inputs (st.emit Opcode.call_function (Target.fn f) args cand).1 ∧
    Ext st (st.emit Opcode.call_function (Target.fn f) args cand).1 ∧
    argOk sem inputs (st.emit Opcode.call_function (Target.fn f) args cand).1
      (Arg.node (st.emit Opcode.call_function (Target.fn f) args cand).2)
      (sem f (args.map (resolveArg (envOf sem inputs st.nodes)))) ∧
    argInState (st.emit Opcode.call_function (Target.fn f) args cand).1
      (Arg.node (st.emit Opcode.call_function (Target.fn f) args cand).2) := by
  obtain ⟨h1, h2, h3, h4, h5, h6, h7⟩ := hInv
  have hfresh : (envOf sem inputs st.nodes).lookup st.nextId = none := by
    cases hl : (envOf sem inputs st.nodes).lookup st.nextId with
    | none => rfl
    | some v => exact absurd (h4 st.nextId (by simp [hl])) (lt_irrefl _)
  have henv : envOf sem inputs
      (st.emit Opcode.call_function (Target.fn f) args cand).1.nodes =
      envOf sem inputs st.nodes ++
        [(st.nextId, sem f (args.map (resolveArg (envOf sem inputs st.nodes))))] :=
    envOf_append_call sem inputs st.nodes st.nextId _ f args []
  refine ⟨⟨?_, ?_, ?_, ?_, ?_, ?_, ?_⟩, ?_, ?_, ?_⟩
  · exact Nat.le_trans h1 (Nat.le_succ _)
  · intro n hn
    rcases List.mem_append.mp hn with hmem | hmem
    · exact Nat.lt_trans (h2 n hmem) (Nat.lt_succ_self _)
    · rw [List.mem_singleton] at hmem
      rw [hmem]
      exact Nat.lt_succ_self _
  · intro n hn
    rcases List.mem_append.mp hn with hmem | hmem
    · exact h3 n hmem
    · rw [List.mem_singleton] at hmem
      rw [hmem]
      simp
  · intro k hk
    rw [henv] at hk
    rw [lookup_append] at hk
    cases hl : (envOf sem inputs st.nodes).lookup k with
    | some v =>
      exact Nat.lt_trans (h4 k (by simp [hl])) (Nat.lt_succ_self _)
    | none =>
      rw [hl, lookup_single] at hk
      by_cases hke : k = st.nextId
      · rw [hke]
        exact Nat.lt_succ_self _
      · simp [hke] at hk
  · intro i hi
    rw [henv]
    exact lookup_append_some _ (h5 i hi)
  · show orderedAux []
      (st.nodes ++ [⟨st.nextId, freshName (namesOf st.nodes) cand,
        Opcode.call_function, Target.fn f, args, []⟩]) = true
    rw [orderedAux_append]
    refine Bool.and_eq_true_iff.mpr ⟨h6, ?_⟩
    simp only [orderedAux, argsAllIn, Bool.and_eq_true, List.all_eq_true]
    refine ⟨⟨?_, ?_⟩, trivial⟩
    · intro a hmem
      have ha : a.inSeen (idsOf st.nodes) = true :=
        List.all_eq_true.mp hargs a hmem
      cases a with
      | lit v => rfl
      | node j =>
        have hj : j ∈ idsOf st.nodes := by simpa [Arg.inSeen] using ha
        have : j ∈ accumIds ([] : List Nat) st.nodes := mem_accumIds (Or.inl hj)
        simpa [Arg.inSeen] using this
    · intro p hp
      simp at hp
  · intro i hi
    have hm : i ∈ idsOf st.nodes := by simpa using h7 i hi
    have hm2 : i ∈ idsOf (st.emit Opcode.call_function (Target.fn f) args cand).1.nodes := by
      show i ∈ idsOf (st.nodes ++ [⟨st.nextId, freshName (namesOf st.nodes) cand,
        Opcode.call_function, Target.fn f, args, []⟩])
      simp only [idsOf, List.map_append]
      exact List.mem_append_left _ hm
    simpa using hm2
  · exact ⟨Nat.le_succ _, [_], rfl⟩
  · refine ⟨Nat.lt_succ_self _, ?_⟩
    rw [henv]
    show List.lookup st.nextId (envOf sem inputs st.nodes ++
      [(st.nextId, sem f (List.map (resolveArg (envOf sem inputs st.nodes)) args))]) =
      some (sem f (List.map (resolveArg (envOf sem inputs st.nodes)) args))
    rw [lookup_append_none _ hfresh, lookup_single]
    simp
  · have hm : st.nextId ∈ idsOf
        (st.emit Opcode.call_function (Target.fn f) args cand).1.nodes := by
      show st.nextId ∈ idsOf (st.nodes ++ [⟨st.nextId, freshName (namesOf st.nodes) cand,
        Opcode.call_function, Target.fn f, args, []⟩])
      simp [idsOf]
    simpa [argInState, Arg.inSeen] using hm

theorem traceE_sound (reg : List String) (sem : String → List Int → Int)
    (np : Nat) (inputs : List Int) :
    ∀ (e : HExp) (st stF : TraceState) (r : Arg),
      varsBelow np e = true →
      TraceInv np sem inputs st →
      traceE reg sem e st = Except.ok (stF, r) →
      TraceInv np sem inputs stF ∧ Ext st stF ∧
        argOk sem inputs stF r (heval sem inputs e) ∧ argInState stF r := by
  intro e
  induction e with
  | var i =>
    intro st stF r hv hInv htr
    simp only [traceE, Except.ok.injEq, Prod.mk.injEq] at htr
    obtain ⟨rfl, rfl⟩ := htr
    have hi : i < np := by simpa [varsBelow] using hv
    obtain ⟨h1, h2, h3, h4, h5, h6, h7⟩ := hInv
    exact ⟨⟨h1, h2, h3, h4, h5, h6, h7⟩, ext_refl st,
      ⟨Nat.lt_of_lt_of_le hi h1, h5 i hi⟩, h7 i hi⟩
  | lit v =>
    intro st stF r hv hInv htr
    simp only [traceE, Except.ok.injEq, Prod.mk.injEq] at htr
    obtain ⟨rfl, rfl⟩ := htr
    exact ⟨hInv, ext_refl st, rfl, rfl⟩
  | binop op a b iha ihb =>
    intro st stF r hv hInv htr
    simp only [varsBelow, Bool.and_eq_true] at hv
    rw [traceE] at htr
    cases h1 : traceE reg sem a st with
    | error err => exact absurd htr (by simp [h1])
    | ok p1 =>
      obtain ⟨st1, ra⟩ := p1
      simp only [h1] at htr
      cases h2 : traceE reg sem b st1 with
      | error err => exact absurd htr (by simp [h2])
      | ok p2 =>
        obtain ⟨st2, rb⟩ := p2
        simp only [h2] at htr
        obtain ⟨hInv1, hext1, hoka, hina⟩ := iha st st1 ra hv.1 hInv h1
        obtain ⟨hInv2, hext2, hokb, hinb⟩ := ihb st1 st2 rb hv.2 hInv1 h2
        have hoka2 : argOk sem inputs st2 ra (heval sem inputs a) :=
          argOk_mono hoka hext2
        have hina2 : argInState st2 ra := argInState_mono hina hext2
        cases ra with
        | lit va =>
          cases rb with
          | lit vb =>
            simp only [Except.ok.injEq, Prod.mk.injEq] at htr
            obtain ⟨rfl, rfl⟩ := htr
            refine ⟨hInv2, ext_trans hext1 hext2, ?_, rfl⟩
            have ha2 : va = heval sem inputs a := hoka2
            have hb2 : vb = heval sem inputs b := hokb
            show sem op [va, vb] = sem op [heval sem inputs a, heval sem inputs b]
            rw [ha2, hb2]
          | node jb =>
            simp only [Except.ok.injEq, Prod.mk.injEq] at htr
            obtain ⟨rfl, rfl⟩ := htr
            have hargs : ([Arg.lit va, Arg.node jb]).all
                (Arg.inSeen (idsOf st2.nodes)) = true := by
              simp only [List.all_cons, List.all_nil, Bool.and_eq_true]
              exact ⟨rfl, hinb, trivial⟩
            obtain ⟨hI, hE, hO, hA⟩ :=
              emit_call_ok np sem inputs st2 op [Arg.lit va, Arg.node jb] op hInv2 hargs
            have hmap : ([Arg.lit va, Arg.node jb]).map
                (resolveArg (envOf sem inputs st2.nodes)) =
                [heval sem inputs a, heval sem inputs b] := by
              simp only [List.map_cons, List.map_nil]
              rw [argOk_resolve hoka2, argOk_resolve hokb]
            rw [hmap] at hO
            exact ⟨hI, ext_trans hext1 (ext_trans hext2 hE), hO, hA⟩
        | node ja =>
          simp only [Except.ok.injEq, Prod.mk.injEq] at htr
          obtain ⟨rfl, rfl⟩ := htr
          have hargs : ([Arg.node ja, rb]).all
              (Arg.inSeen (idsOf st2.nodes)) = true := by
            simp only [List.all_cons, List.all_nil, Bool.and_eq_true]
            exact ⟨hina2, hinb, trivial⟩
          obtain ⟨hI, hE, hO, hA⟩ :=
            emit_call_ok np sem inputs st2 op [Arg.node ja, rb] op hInv2 hargs
          have hmap : ([Arg.node ja, rb]).map
              (resolveArg (envOf sem inputs st2.nodes)) =
              [heval sem inputs a, heval sem inputs b] := by
            simp only [List.map_cons, List.map_nil]
            rw [argOk_resolve hoka2, argOk_resolve hokb]
          rw [hmap] at hO
          exact ⟨hI, ext_trans hext1 (ext_trans hext2 hE), hO, hA⟩
  | call1 f a iha =>
    intro st stF r hv hInv htr
    have hva : varsBelow np a = true := by simpa [varsBelow] using hv
    rw [traceE] at htr
    cases h1 : traceE reg sem a st with
    | error err => exact absurd htr (by simp [h1])
    | ok p1 =>
      obtain ⟨st1, ra⟩ := p1
      simp only [h1] at htr
      obtain ⟨hInv1, hext1, hoka, hina⟩ := iha st st1 ra hva hInv h1
      by_cases hf : f ∈ reg
      · rw [if_pos hf] at htr
        simp only [Except.ok.injEq, Prod.mk.injEq] at htr
        obtain ⟨rfl, rfl⟩ := htr
        have hargs : ([ra]).all (Arg.inSeen (idsOf st1.nodes)) = true := by
          simp only [List.all_cons, List.all_nil, Bool.and_eq_true]
          exact ⟨hina, trivial⟩
        obtain ⟨hI, hE, hO, hA⟩ := emit_call_ok np sem inputs st1 f [ra] f hInv1 hargs
        have hmap : ([ra]).map (resolveArg (envOf sem inputs st1.nodes)) =
            [heval sem inputs a] := by
          simp only [List.map_cons, List.map_nil]
          rw [argOk_resolve hoka]
        rw [hmap] at hO
        exact ⟨hI, ext_trans hext1 hE, hO, hA⟩
      · rw [if_neg hf] at htr
        cases ra with
        | lit v =>
          simp only [Except.ok.injEq, Prod.mk.injEq] at htr
          obtain ⟨rfl, rfl⟩ := htr
          refine ⟨hInv1, hext1, ?_, rfl⟩
          have hv2 : v = heval sem inputs a := hoka
          show sem f [v] = sem f [heval sem inputs a]
          rw [hv2]
        | node j =>
          simp at htr
  | plen a iha =>
    intro st stF r hv hInv htr
    have hva : varsBelow np a = true := by simpa [varsBelow] using hv
    rw [traceE] at htr
    cases h1 : traceE reg sem a st with
    | error err => exact absurd htr (by simp [h1])
    | ok p1 =>
      obtain ⟨st1, ra⟩ := p1
      simp only [h1] at htr
      obtain ⟨hInv1, hext1, hoka, hina⟩ := iha st st1 ra hva hInv h1
      simp only [proxy_len] at htr
      by_cases hlen : "len" ∈ reg
      · rw [if_pos hlen] at htr
        simp only [Except.ok.injEq, Prod.mk.injEq] at htr
        obtain ⟨rfl, rfl⟩ := htr
        have hargs : ([ra]).all (Arg.inSeen (idsOf st1.nodes)) = true := by
          simp only [List.all_cons, List.all_nil, Bool.and_eq_true]
          exact ⟨hina, trivial⟩
        obtain ⟨hI, hE, hO, hA⟩ :=
          emit_call_ok np sem inputs st1 "len" [ra] "len" hInv1 hargs
        have hmap : ([ra]).map (resolveArg (envOf sem inputs st1.nodes)) =
            [heval sem inputs a] := by
          simp only [List.map_cons, List.map_nil]
          rw [argOk_resolve hoka]
        rw [hmap] at hO
        exact ⟨hI, ext_trans hext1 hE, hO, hA⟩
      · rw [if_neg hlen] at htr
        cases ra with
        | lit v =>
          simp only [Except.ok.injEq, Prod.mk.injEq] at htr
          obtain ⟨rfl, rfl⟩ := htr
          refine ⟨hInv1, hext1, ?_, rfl⟩
          have hv2 : v = heval sem inputs a := hoka
          show sem "len" [v] = sem "len" [heval sem inputs a]
          rw [hv2]
        | node j =>
          simp at htr
  | pbool a iha =>
    intro st stF r hv hInv htr
    have hva : varsBelow np a = true := by simpa [varsBelow] using hv
    rw [traceE] at htr
    cases h1 : traceE reg sem a st with
    | error err => exact absurd htr (by simp [h1])
    | ok p1 =>
      obtain ⟨st1, ra⟩ := p1
      simp only [h1] at htr
      obtain ⟨hInv1, hext1, hoka, hina⟩ := iha st st1 ra hva hInv h1
      cases ra with
      | lit v =>
        simp only [to_bool, Except.ok.injEq, Prod.mk.injEq] at htr
        obtain ⟨rfl, rfl⟩ := htr
        refine ⟨hInv1, hext1, ?_, rfl⟩
        have hv2 : v = heval sem inputs a := hoka
        show (if v = 0 then (0 : Int) else 1) =
          (if heval sem inputs a = 0 then (0 : Int) else 1)
        rw [hv2]
      | node j =>
        simp [to_bool] at htr

theorem envOf_init (sem : String → List Int → Int) (inputs : List Int) (np : Nat) :
    envOf sem inputs ((List.range np).map mkPlaceholder) =
      (List.range np).map (fun i => (i, inputs.getD i 0)) := by
  induction np with
  | zero => rfl
  | succ n ih =>
    rw [List.range_succ, List.map_append, List.map_append, List.map_singleton,
      List.map_singleton, envOf_append_param, ih]

theorem lookup_range_map (f : Nat → Int) (np k : Nat) :
    ((List.range np).map (fun i => (i, f i))).lookup k =
      if k < np then some (f k) else none := by
  induction np with
  | zero => simp [List.lookup]
  | succ n ih =>
    rw [List.range_succ, List.map_append, List.map_singleton, lookup_append, ih]
    by_cases hk : k < n
    · simp [hk, Nat.lt_succ_of_lt hk]
    · by_cases hk2 : k = n
      · simp [hk, hk2, lookup_single]
      · have hk3 : ¬ k < n + 1 := by omega
        simp [hk, hk2, hk3, lookup_single]

theorem ordered_init (np : Nat) :
    orderedAux [] ((List.range np).map mkPlaceholder) = true := by
  induction np with
  | zero => rfl
  | succ n ih =>
    rw [List.range_succ, List.map_append, List.map_singleton, orderedAux_append]
    simp [ih, orderedAux, argsAllIn, mkPlaceholder]

theorem initState_inv (np : Nat) (sem : String → List Int → Int) (inputs : List Int) :
    TraceInv np sem inputs (initState np) := by
  have henv : envOf sem inputs (initState np).nodes =
      (List.range np).map (fun i => (i, inputs.getD i 0)) :=
    envOf_init sem inputs np
  refine ⟨Nat.le_refl np, ?_, ?_, ?_, ?_, ordered_init np, ?_⟩
  · intro n hn
    simp only [initState, List.mem_map, List.mem_range] at hn
    obtain ⟨i, hi, rfl⟩ := hn
    simpa [mkPlaceholder] using hi
  · intro n hn
    simp only [initState, List.mem_map] at hn
    obtain ⟨i, _, rfl⟩ := hn
    simp [mkPlaceholder]
  · intro k hk
    rw [henv, lookup_range_map] at hk
    by_cases h : k < np
    · exact h
    · simp [h] at hk
  · intro i hi
    rw [henv, lookup_range_map]
    simp [hi]
  · intro i hi
    have hids : idsOf ((List.range np).map mkPlaceholder) = List.range np := by
      unfold idsOf
      rw [List.map_map]
      have hcomp : (Node.id ∘ mkPlaceholder) = id := by
        funext j
        rfl
      rw [hcomp, List.map_id]
    show (idsOf (initState np).nodes).contains i = true
    rw [show (initState np).nodes = (List.range np).map mkPlaceholder from rfl, hids]
    simpa using List.mem_range.mpr hi

theorem isOutput_false {n : Node} (h : n.op ≠ Opcode.output) :
    n.isOutput = false := by
  cases hop : n.op
  case output => exact absurd hop h
  all_goals simp [Node.isOutput, hop]

/-- C1: for every host computation free of data-dependent control flow —
i.e. whose trace succeeds — and for all inputs, executing the code
generated from the traced Graph returns the same value as evaluating the
computation directly: `execute(codegen(trace(f)), inputs) = f(inputs)`. -/
theorem round_trip (reg : List String) (sem : String → List Int → Int)
    (np : Nat) (e : HExp) (inputs : List Int) (g : Graph)
    (hv : varsBelow np e = true)
    (hg : htrace reg sem np e = Except.ok g) :
    execute sem (codegen g) inputs = heval sem inputs e := by
  unfold htrace at hg
  cases h1 : traceE reg sem e (initState np) with
  | error err => exact absurd hg (by simp [h1])
  | ok p =>
    obtain ⟨st, r⟩ := p
    simp only [h1, Except.ok.injEq] at hg
    subst hg
    obtain ⟨hI, hE, hO, hA⟩ :=
      traceE_sound reg sem np inputs e (initState np) st r hv
        (initState_inv np sem inputs) h1
    obtain ⟨h1', h2', h3', h4', h5', h6', h7'⟩ := hI
    have hnodes : (st.emit Opcode.output (Target.fn "output") [r] "output").1.nodes =
        st.nodes ++ [⟨st.nextId, freshName (namesOf st.nodes) "output",
          Opcode.output, Target.fn "output", [r], []⟩] := rfl
    rw [hnodes]
    have hno : st.nodes.find? Node.isOutput = none := by
      rw [List.find?_eq_none]
      intro n hn
      simp [isOutput_false (h3' n hn)]
    have hfind : (st.nodes ++ [(⟨st.nextId, freshName (namesOf st.nodes) "output",
        Opcode.output, Target.fn "output", [r], []⟩ : Node)]).find? Node.isOutput =
        some (⟨st.nextId, freshName (namesOf st.nodes) "output",
          Opcode.output, Target.fn "output", [r], []⟩ : Node) := by
      rw [List.find?_append, hno, Option.none_or]
      rfl
    have hret : Graph.outputArg ⟨st.nodes ++ [⟨st.nextId,
        freshName (namesOf st.nodes) "output",
        Opcode.output, Target.fn "output", [r], []⟩]⟩ = r := by
      unfold Graph.outputArg
      rw [hfind]
      rfl
    have hex : execute sem (codegen ⟨st.nodes ++ [⟨st.nextId,
        freshName (namesOf st.nodes) "output",
        Opcode.output, Target.fn "output", [r], []⟩]⟩) inputs =
        resolveArg (envOf sem inputs st.nodes)
          (Graph.outputArg ⟨st.nodes ++ [⟨st.nextId,
            freshName (namesOf st.nodes) "output",
            Opcode.output, Target.fn "output", [r], []⟩]⟩) := by
      unfold execute codegen envOf
      rw [List.filterMap_append]
      have hout : ([(⟨st.nextId, freshName (namesOf st.nodes) "output",
          Opcode.output, Target.fn "output", [r], []⟩ : Node)].filterMap
          stmtOfNode) = [] := by
        simp [stmtOfNode]
      rw [hout, List.append_nil]
    rw [hex, hret]
    exact argOk_resolve hO

/-- Witness for C1: tracing `f(x, y) -> x + y`, generating code, and
executing it on `[3, 4]` agrees with evaluating `f` directly. -/
theorem round_trip_witness :
    execute semStd (codegen ⟨[
      ⟨0, "x0", Opcode.placeholder, Target.param 0, [], []⟩,
      ⟨1, "x1", Opcode.placeholder, Target.param 1, [], []⟩,
      ⟨2, "add", Opcode.call_function, Target.fn "add",
        [Arg.node 0, Arg.node 1], []⟩,
      ⟨3, "output", Opcode.output, Target.fn "output", [Arg.node 2], []⟩]⟩)
      [3, 4] =
    heval semStd [3, 4] (HExp.binop "add" (HExp.var 0) (HExp.var 1)) :=
  round_trip [] semStd 2 (HExp.binop "add" (HExp.var 0) (HExp.var 1)) [3, 4] _
    (by decide) rfl

theorem argsAllIn_shrink {n : Node} {seen seen2 : List Nat} {i : Nat}
    (hsub : ∀ j, j ∈ seen → j = i ∨ j ∈ seen2)
    (href : n.referencesId i = false)
    (h : argsAllIn seen n = true) : argsAllIn seen2 n = true := by
  simp only [argsAllIn, Bool.and_eq_true, List.all_eq_true] at h ⊢
  simp only [Node.referencesId, Bool.or_eq_false_iff, List.any_eq_false] at href
  obtain ⟨ha, hk⟩ := h
  obtain ⟨hra, hrk⟩ := href
  constructor
  · intro a hmem
    have h1 := ha a hmem
    have h2 := hra a hmem
    cases a with
    | lit v => rfl
    | node j =>
      have hj : j ∈ seen := by simpa [Arg.inSeen] using h1
      have hji : j ≠ i := by simpa [Arg.refsId] using h2
      rcases hsub j hj with h | h
      · exact absurd h hji
      · simpa [Arg.inSeen] using h
  · intro p hmem
    have h1 : p.2.inSeen seen = true := hk p hmem
    have h2 : p.2.refsId i = false := by simpa using hrk p hmem
    show p.2.inSeen seen2 = true
    cases hp : p.2 with
    | lit v => rfl
    | node j =>
      rw [hp] at h1 h2
      have hj : j ∈ seen := by simpa [Arg.inSeen] using h1
      have hji : j ≠ i := by simpa [Arg.refsId] using h2
      rcases hsub j hj with h | h
      · exact absurd h hji
      · simpa [Arg.inSeen] using h

theorem orderedAux_filter_not_ref {i : Nat} :
    ∀ (l : List Node) (seen seen2 : List Nat),
      (∀ j, j ∈ seen → j = i ∨ j ∈ seen2) →
      (∀ n ∈ l, n.referencesId i = false) →
      orderedAux seen l = true →
      orderedAux seen2 (l.filter (fun n => n.id ≠ i)) = true := by
  intro l
  induction l with
  | nil =>
    intro seen seen2 _ _ _
    rfl
  | cons n rest ih =>
    intro seen seen2 hsub href hord
    simp only [orderedAux, Bool.and_eq_true] at hord
    obtain ⟨hargs, hord2⟩ := hord
    by_cases hni : n.id = i
    · rw [List.filter_cons_of_neg (by simp [hni])]
      exact ih (n.id :: seen) seen2
        (fun j hj => by
          rcases List.mem_cons.mp hj with h | h
          · left
            rw [h, hni]
          · exact hsub j h)
        (fun m hm => href m (List.mem_cons_of_mem _ hm)) hord2
    · rw [List.filter_cons_of_pos (by simp [hni])]
      simp only [orderedAux, Bool.and_eq_true]
      refine ⟨argsAllIn_shrink hsub (href n (List.mem_cons_self _ _)) hargs, ?_⟩
      exact ih (n.id :: seen) (n.id :: seen2)
        (fun j hj => by
          rcases List.mem_cons.mp hj with h | h
          · right
            exact List.mem_cons.mpr (Or.inl h)
          · rcases hsub j h with h2 | h2
            · left
              exact h2
            · right
              exact List.mem_cons_of_mem _ h2)
        (fun m hm => href m (List.mem_cons_of_mem _ hm)) hord2

theorem erase_preserves_ordering (g g2 : Graph) (i : Nat)
    (hord : g.wellOrdered = true) (h : g.erase i = Except.ok g2) :
    g2.wellOrdered = true := by
  unfold Graph.erase at h
  by_cases hu : g.users i = []
  · rw [if_pos hu] at h
    simp only [Except.ok.injEq] at h
    subst h
    have href : ∀ n ∈ g.nodes, n.referencesId i = false := by
      intro n hn
      by_contra hc
      have hct : n.referencesId i = true := by simpa using hc
      have hfm : n ∈ g.nodes.filter (fun m => m.referencesId i) :=
        List.mem_filter.mpr ⟨hn, hct⟩
      have hidm : n.id ∈ g.users i := by
        unfold Graph.users idsOf
        exact List.mem_map_of_mem Node.id hfm
      rw [hu] at hidm
      simp at hidm
    exact orderedAux_filter_not_ref g.nodes [] []
      (fun j hj => by simp at hj) href hord
  · rw [if_neg hu] at h
    cases h

theorem argsAllIn_replace {n : Node} {seen : List Nat} {a b : Nat}
    (h : argsAllIn seen n = true)
    (hcond : n.referencesId a = false ∨ b ∈ seen) :
    argsAllIn seen (Node.replaceUses a b n) = true := by
  simp only [argsAllIn, Node.replaceUses, Bool.and_eq_true, List.all_eq_true] at h ⊢
  obtain ⟨ha, hk⟩ := h
  constructor
  · intro x hx
    rw [List.mem_map] at hx
    obtain ⟨y, hy, rfl⟩ := hx
    have h1 := ha y hy
    cases y with
    | lit v => rfl
    | node j =>
      by_cases hja : j = a
      · subst hja
        rcases hcond with hf | hb2
        · simp only [Node.referencesId, Bool.or_eq_false_iff,
            List.any_eq_false] at hf
          have := hf.1 (Arg.node j) hy
          simp [Arg.refsId] at this
        · show (replaceArg j b (Arg.node j)).inSeen seen = true
          simp only [replaceArg, if_pos rfl]
          simpa [Arg.inSeen] using hb2
      · show (replaceArg a b (Arg.node j)).inSeen seen = true
        simp only [replaceArg, if_neg hja]
        exact h1
  · intro x hx
    rw [List.mem_map] at hx
    obtain ⟨y, hy, rfl⟩ := hx
    have h1 : y.2.inSeen seen = true := hk y hy
    show (replaceArg a b y.2).inSeen seen = true
    cases hy2 : y.2 with
    | lit v => rfl
    | node j =>
      rw [hy2] at h1
      by_cases hja : j = a
      · subst hja
        rcases hcond with hf | hb2
        · simp only [Node.referencesId, Bool.or_eq_false_iff,
            List.any_eq_false] at hf
          have := hf.2 y hy
          rw [hy2] at this
          simp [Arg.refsId] at this
        · simp only [replaceArg, if_pos rfl]
          simpa [Arg.inSeen] using hb2
      · simp only [replaceArg, if_neg hja]
        exact h1

theorem replOk_preserves :
    ∀ (l : List Node) (seen : List Nat) (a b : Nat),
      orderedAux seen l = true → replOk a b seen l = true →
      orderedAux seen (l.map (Node.replaceUses a b)) = true := by
  intro l
  induction l with
  | nil =>
    intro seen a b _ _
    rfl
  | cons n rest ih =>
    intro seen a b hord hrep
    simp only [orderedAux, replOk, Bool.and_eq_true] at hord hrep
    obtain ⟨hargs, hord2⟩ := hord
    obtain ⟨hcond, hrep2⟩ := hrep
    simp only [List.map_cons, orderedAux, Bool.and_eq_true]
    have hcond2 : n.referencesId a = false ∨ b ∈ seen := by
      rcases Bool.or_eq_true_iff.mp hcond with h | h
      · left
        simpa using h
      · right
        simpa using h
    refine ⟨argsAllIn_replace hargs hcond2, ?_⟩
    show orderedAux ((Node.replaceUses a b n).id :: seen)
      (rest.map (Node.replaceUses a b)) = true
    have hid : (Node.replaceUses a b n).id = n.id := rfl
    rw [hid]
    exact ih (n.id :: seen) a b hord2 hrep2

theorem insert_preserves_ordering (g : Graph) (op : Opcode) (tgt : Target)
    (args : List Arg) (kwargs : List (String × Arg)) (cand : String)
    (hord : g.wellOrdered = true)
    (hargs : args.all (Arg.inSeen (idsOf g.nodes)) = true)
    (hkw : kwargs.all (fun p => p.2.inSeen (idsOf g.nodes)) = true) :
    (g.insertNode op tgt args kwargs cand).1.wellOrdered = true := by
  show orderedAux [] (g.nodes ++ [⟨g.freshId, freshName (namesOf g.nodes) cand,
    op, tgt, args, kwargs⟩]) = true
  rw [orderedAux_append]
  refine Bool.and_eq_true_iff.mpr ⟨hord, ?_⟩
  simp only [orderedAux, argsAllIn, Bool.and_eq_true, List.all_eq_true]
  refine ⟨⟨?_, ?_⟩, trivial⟩
  · intro x hx
    have h1 : x.inSeen (idsOf g.nodes) = true := List.all_eq_true.mp hargs x hx
    cases x with
    | lit v => rfl
    | node j =>
      have hj : j ∈ idsOf g.nodes := by simpa [Arg.inSeen] using h1
      have : j ∈ accumIds ([] : List Nat) g.nodes := mem_accumIds (Or.inl hj)
      simpa [Arg.inSeen] using this
  · intro p hp
    have h1 : p.2.inSeen (idsOf g.nodes) = true := List.all_eq_true.mp hkw p hp
    show p.2.inSeen (accumIds [] g.nodes) = true
    cases hp2 : p.2 with
    | lit v => rfl
    | node j =>
      rw [hp2] at h1
      have hj : j ∈ idsOf g.nodes := by simpa [Arg.inSeen] using h1
      have : j ∈ accumIds ([] : List Nat) g.nodes := mem_accumIds (Or.inl hj)
      simpa [Arg.inSeen] using this

theorem trace_ordered (reg : List String) (sem : String → List Int → Int)
    (np : Nat) (e : HExp) (g : Graph)
    (hv : varsBelow np e = true)
    (hg : htrace reg sem np e = Except.ok g) :
    g.wellOrdered = true ∧ g.singleOutputLast = true := by
  unfold htrace at hg
  cases h1 : traceE reg sem e (initState np) with
  | error err => exact absurd hg (by simp [h1])
  | ok p =>
    obtain ⟨st, r⟩ := p
    simp only [h1, Except.ok.injEq] at hg
    subst hg
    obtain ⟨hI, _, _, hA⟩ :=
      traceE_sound reg sem np [] e (initState np) st r hv
        (initState_inv np sem []) h1
    obtain ⟨_, _, h3', _, _, h6', _⟩ := hI
    have hnodes : (st.emit Opcode.output (Target.fn "output") [r] "output").1.nodes =
        st.nodes ++ [⟨st.nextId, freshName (namesOf st.nodes) "output",
          Opcode.output, Target.fn "output", [r], []⟩] := rfl
    constructor
    · show orderedAux [] (st.emit Opcode.output (Target.fn "output") [r] "output").1.nodes = true
      rw [hnodes, orderedAux_append]
      refine Bool.and_eq_true_iff.mpr ⟨h6', ?_⟩
      simp only [orderedAux, argsAllIn, Bool.and_eq_true, List.all_eq_true]
      refine ⟨⟨?_, ?_⟩, trivial⟩
      · intro x hx
        rw [List.mem_singleton] at hx
        subst hx
        cases x with
        | lit v => rfl
        | node j =>
          have hj : j ∈ idsOf st.nodes := by simpa [argInState, Arg.inSeen] using hA
          have hacc : j ∈ accumIds ([] : List Nat) st.nodes := mem_accumIds (Or.inl hj)
          simpa [Arg.inSeen] using hacc
      · intro p hp
        simp at hp
    · show Graph.singleOutputLast ⟨(st.emit Opcode.output (Target.fn "output") [r] "output").1.nodes⟩ = true
      rw [Graph.singleOutputLast, hnodes]
      have hlast : (st.nodes ++ [(⟨st.nextId, freshName (namesOf st.nodes) "output",
          Opcode.output, Target.fn "output", [r], []⟩ : Node)]).getLast? =
          some (⟨st.nextId, freshName (namesOf st.nodes) "output",
            Opcode.output, Target.fn "output", [r], []⟩ : Node) := by
        rw [List.getLast?_append]
        rfl
      rw [hlast]
      have hfil : (st.nodes ++ [(⟨st.nextId, freshName (namesOf st.nodes) "output",
          Opcode.output, Target.fn "output", [r], []⟩ : Node)]).filter Node.isOutput =
          [(⟨st.nextId, freshName (namesOf st.nodes) "output",
            Opcode.output, Target.fn "output", [r], []⟩ : Node)] := by
        rw [List.filter_append]
        have hnil : st.nodes.filter Node.isOutput = [] := by
          simp only [List.filter_eq_nil_iff]
          intro n hn
          simp [isOutput_false (h3' n hn)]
        rw [hnil]
        rfl
      rw [hfil]
      rfl

/-- C7 as amended: every Graph produced by tracing satisfies the ordering
invariant and has its single output Node last; the ordering invariant is
preserved by `erase`, by insert-at-end when the inserted Node's references
resolve to already-present Nodes, and by `replace_all_uses_with(A, B)`
when `B` appears strictly before every Node that references `A` (the
`replOk` side condition) — without that precedence condition the public
`replace_all_uses_with` can break the ordering, as the counterexample
shows. -/
theorem ordering_invariant_amended :
    (∀ (reg : List String) (sem : String → List Int → Int) (np : Nat) (e : HExp)
        (g : Graph), varsBelow np e = true → htrace reg sem np e = Except.ok g →
        g.wellOrdered = true ∧ g.singleOutputLast = true) ∧
    (∀ (g g2 : Graph) (i : Nat), g.wellOrdered = true → g.erase i = Except.ok g2 →
        g2.wellOrdered = true) ∧
    (∀ (g : Graph) (op : Opcode) (tgt : Target) (args : List Arg)
        (kwargs : List (String × Arg)) (cand : String),
        g.wellOrdered = true →
        args.all (Arg.inSeen (idsOf g.nodes)) = true →
        kwargs.all (fun p => p.2.inSeen (idsOf g.nodes)) = true →
        (g.insertNode op tgt args kwargs cand).1.wellOrdered = true) ∧
    (∀ (g : Graph) (a b : Nat), g.wellOrdered = true →
        replOk a b [] g.nodes = true →
        (g.replaceAllUsesWith a b).wellOrdered = true) :=
  ⟨trace_ordered,
   erase_preserves_ordering,
   insert_preserves_ordering,
   fun g a b h1 h2 => replOk_preserves g.nodes [] a b h1 h2⟩

/-- Witness for the amended C7: a concrete trace is ordered with output
last; erasing `h` from the concrete graph, inserting a consumer of `f`,
and replacing uses of an early placeholder by the other placeholder all
preserve the ordering. -/
theorem ordering_invariant_amended_witness :
    ((⟨[⟨0, "x0", Opcode.placeholder, Target.param 0, [], []⟩,
        ⟨1, "x1", Opcode.placeholder, Target.param 1, [], []⟩,
        ⟨2, "add", Opcode.call_function, Target.fn "add",
          [Arg.node 0, Arg.node 1], []⟩,
        ⟨3, "output", Opcode.output, Target.fn "output",
          [Arg.node 2], []⟩]⟩ : Graph).wellOrdered = true ∧
      (⟨[⟨0, "x0", Opcode.placeholder, Target.param 0, [], []⟩,
        ⟨1, "x1", Opcode.placeholder, Target.param 1, [], []⟩,
        ⟨2, "add", Opcode.call_function, Target.fn "add",
          [Arg.node 0, Arg.node 1], []⟩,
        ⟨3, "output", Opcode.output, Target.fn "output",
          [Arg.node 2], []⟩]⟩ : Graph).singleOutputLast = true) ∧
    (demoSmall.eraseRaw 2).wellOrdered = true ∧
    (demoSmall.insertNode Opcode.call_function (Target.fn "k")
      [Arg.node 1] [] "k").1.wellOrdered = true ∧
    ((⟨[⟨0, "x0", Opcode.placeholder, Target.param 0, [], []⟩,
        ⟨1, "x1", Opcode.placeholder, Target.param 1, [], []⟩,
        ⟨2, "f", Opcode.call_function, Target.fn "f", [Arg.node 0], []⟩]⟩ :
      Graph).replaceAllUsesWith 0 1).wellOrdered = true :=
  ⟨ordering_invariant_amended.1 [] semStd 2
      (HExp.binop "add" (HExp.var 0) (HExp.var 1)) _ (by decide) rfl,
   ordering_invariant_amended.2.1 demoSmall (demoSmall.eraseRaw 2) 2
      (by decide) rfl,
   ordering_invariant_amended.2.2.1 demoSmall Opcode.call_function
      (Target.fn "k") [Arg.node 1] [] "k" (by decide) (by decide) (by decide),
   ordering_invariant_amended.2.2.2
      ⟨[⟨0, "x0", Opcode.placeholder, Target.param 0, [], []⟩,
        ⟨1, "x1", Opcode.placeholder, Target.param 1, [], []⟩,
        ⟨2, "f", Opcode.call_function, Target.fn "f", [Arg.node 0], []⟩]⟩
      0 1 (by decide) (by decide)⟩

/-- Witness for C10: rewriting the target of Node 1 (`f`) to `mul` in the
concrete graph changes that Node's target, keeps Node 2's target, and
keeps the users set of Node 0. -/
theorem set_target_frame_witness :
    ((demoSmall.setTarget 1 (Target.fn "mul")).nodes.get ⟨1, by decide⟩).target =
      Target.fn "mul" ∧
    ((demoSmall.setTarget 1 (Target.fn "mul")).nodes.get ⟨2, by decide⟩).target =
      (demoSmall.nodes.get ⟨2, by decide⟩).target ∧
    (demoSmall.setTarget 1 (Target.fn "mul")).users 0 = demoSmall.users 0 :=
  ⟨((set_target_frame demoSmall 1 (Target.fn "mul")).2.1 1 (by decide)
      (by decide)).2.2.2.2.2.2 (by decide),
   ((set_target_frame demoSmall 1 (Target.fn "mul")).2.1 2 (by decide)
      (by decide)).2.2.2.2.2.1 (by decide),
   (set_target_frame demoSmall 1 (Target.fn "mul")).2.2 0⟩
